import Mathlib

/-!
Shallow embedding of `src/shuftlib/src/tressette.rs` (repository Krahos/shuftle).

The `cards` module (`ItalianCard`, `ItalianRank`, `Suit`) is not part of the
given sources; its enumerations are reconstructed from the spec ("40 cards,
4 seats × 10 cards", suit/rank enumeration) and from the exhaustive matches
in `tressette.rs`.  Everything else is translated directly from
`tressette.rs`.
-/

namespace Shuftle

/-- Modelled from the spec: the suit enumeration of the external `cards`
module (`Suit`), four suits as listed in the repository's test strategy. -/
inductive Suit where
  | Hearts
  | Clubs
  | Spades
  | Diamonds
deriving DecidableEq, Repr, Fintype

/-- Modelled from the spec: the rank enumeration of the external `cards`
module (`ItalianRank`), ten ranks as matched exhaustively by
`TressetteCard::value` in `tressette.rs`. -/
inductive ItalianRank where
  | Ace
  | Two
  | Three
  | Four
  | Five
  | Six
  | Seven
  | Jack
  | Knight
  | King
deriving DecidableEq, Repr, Fintype

/-- Modelled from the spec: the external `ItalianCard`, a rank paired with a
suit, with equality by identity (rank+suit). -/
structure ItalianCard where
  rank : ItalianRank
  suit : Suit
deriving DecidableEq, Repr

instance : Fintype ItalianCard :=
  Fintype.ofEquiv (ItalianRank × Suit)
    { toFun := fun p => ⟨p.1, p.2⟩
      invFun := fun c => (c.rank, c.suit)
      left_inv := fun _ => rfl
      right_inv := fun _ => rfl }

/-- Embedding of `TressetteCard` from `tressette.rs`: a newtype over
`ItalianCard`. -/
structure TressetteCard where
  card : ItalianCard
deriving DecidableEq, Repr

instance : Fintype TressetteCard :=
  Fintype.ofEquiv ItalianCard
    { toFun := fun c => ⟨c⟩
      invFun := fun c => c.card
      left_inv := fun _ => rfl
      right_inv := fun _ => rfl }

/-- Stand-in for Rust's `TressetteCard::default()`; the defaulted array cells
in `OngoingTrick::finish` are never observable, so the concrete value is
irrelevant. -/
instance : Inhabited TressetteCard :=
  ⟨⟨⟨ItalianRank.Ace, Suit.Hearts⟩⟩⟩

/-- Rust `Deref` projection: `card.rank()` on a `TressetteCard`. -/
def TressetteCard.rank (c : TressetteCard) : ItalianRank :=
  c.card.rank

/-- Rust `Deref` projection: `card.suit()` on a `TressetteCard`. -/
def TressetteCard.suit (c : TressetteCard) : Suit :=
  c.card.suit

/-- The `rank_order` array of `impl Ord for TressetteCard` in
`tressette.rs`. -/
def rank_order : List ItalianRank :=
  [ItalianRank.Four, ItalianRank.Five, ItalianRank.Six, ItalianRank.Seven,
   ItalianRank.Jack, ItalianRank.Knight, ItalianRank.King, ItalianRank.Ace,
   ItalianRank.Two, ItalianRank.Three]

/-- Embedding of `rank_order.iter().position(|&r| rank == r)` from
`impl Ord for TressetteCard`; every rank occurs in `rank_order`, so the
Rust `expect` never fires. -/
def ItalianRank.index (r : ItalianRank) : Nat :=
  rank_order.findIdx (fun x => r == x)

/-- Embedding of `impl Ord for TressetteCard`: compare the positions of the
two ranks in `rank_order`. -/
def TressetteCard.cmp (a b : TressetteCard) : Ordering :=
  compare a.rank.index b.rank.index

/-- Embedding of `TressetteCard::value` from `tressette.rs`, in exact
rational arithmetic (`Rational32::new(n, 3)`). -/
def TressetteCard.value (c : TressetteCard) : ℚ :=
  match c.rank with
  | ItalianRank.Ace => 3 / 3
  | ItalianRank.Two | ItalianRank.Three | ItalianRank.King
  | ItalianRank.Knight | ItalianRank.Jack => 1 / 3
  | ItalianRank.Four | ItalianRank.Five | ItalianRank.Six
  | ItalianRank.Seven => 0 / 3

/-- Embedding of `TressetteCard::new` from `tressette.rs`. -/
def TressetteCard.new (rank : ItalianRank) (suit : Suit) : TressetteCard :=
  ⟨⟨rank, suit⟩⟩

/-- Embedding of `PlayerId` from `tressette.rs`: "A player id can only be in
the range 0..4."  The Rust field is private and every constructor (`new`,
`try_from`, `inc`, `Default`) keeps it below 4, so the constructible state
space is exactly `Fin 4`. -/
structure PlayerId where
  val : Fin 4
deriving DecidableEq, Repr, Fintype

instance : Inhabited PlayerId :=
  ⟨⟨0⟩⟩

/-- Embedding of `PlayerId::inc` from `tressette.rs`: add one, except
value 3 resets to 0. -/
def PlayerId.inc (p : PlayerId) : PlayerId :=
  if h : (p.val : Nat) < 3 then ⟨⟨(p.val : Nat) + 1, by omega⟩⟩ else ⟨0⟩

/-- Embedding of `PlayerId::new` from `tressette.rs`: `None` if
`value >= 4`. -/
def PlayerId.new (value : Nat) : Option PlayerId :=
  if h : value < 4 then some ⟨⟨value, h⟩⟩ else none

/-- Embedding of `impl TryFrom<usize> for PlayerId` from `tressette.rs`. -/
def PlayerId.tryFrom (value : Nat) : Except String PlayerId :=
  if h : value < 4 then
    Except.ok ⟨⟨value, h⟩⟩
  else
    Except.error ("Tried to convert " ++ toString value ++
      " into a PlayerId, but acceptable values are in range 0..4")

/-- Embedding of `Trick` from `tressette.rs`: four cards plus the taker. -/
structure Trick where
  cards : Fin 4 → TressetteCard
  taker : PlayerId

/-- Embedding of `Trick::taken_with` from `tressette.rs`. -/
def Trick.taken_with (t : Trick) : TressetteCard :=
  t.cards t.taker.val

/-- Embedding of `OngoingTrick` from `tressette.rs`. -/
structure OngoingTrick where
  cards : Fin 4 → Option TressetteCard
  first_to_play : PlayerId
  next_to_play : PlayerId

/-- Embedding of `OngoingTrick::new` from `tressette.rs`. -/
def OngoingTrick.new (first_to_play : PlayerId) : OngoingTrick :=
  { cards := fun _ => none
    first_to_play := first_to_play
    next_to_play := first_to_play }

/-- Embedding of `OngoingTrick::play` from `tressette.rs`.  The Rust method
mutates `&mut self` and returns `anyhow::Result<()>`; embedded as state
passing: the first component is the state after the call, the second the
result.  The `bail!("")` branch returns before any mutation. -/
def OngoingTrick.play (t : OngoingTrick) (card : TressetteCard) :
    OngoingTrick × Except String Unit :=
  if ∃ i : Fin 4, t.cards i = some card then
    (t, Except.error "")
  else
    ({ t with
        cards := Function.update t.cards t.next_to_play.val (some card)
        next_to_play := t.next_to_play.inc },
     Except.ok ())

/-- Rust `Iterator::max_by_key` specialised to a `Nat`-valued key: of the
elements whose key is maximal, the **last** one is returned; `none` on an
empty list. -/
def maxByKeyLast {α : Type} (key : α → Nat) (l : List α) : Option α :=
  l.foldl
    (fun acc x =>
      match acc with
      | none => some x
      | some m => if key x < key m then some m else some x)
    none

/-- Embedding of `OngoingTrick::finish` from `tressette.rs`: `None` if any
slot is empty; otherwise the leading suit is the suit of `first_to_play`'s
card and the taker is the index of the maximal same-suit card
(`max_by_key` over the `Ord` on `TressetteCard`, i.e. over `rank_order`
positions). -/
def OngoingTrick.finish (t : OngoingTrick) : Option Trick :=
  if _h : ∀ i : Fin 4, (t.cards i).isSome then
    let cards : Fin 4 → TressetteCard := fun i => (t.cards i).getD default
    let leading_suit := (cards t.first_to_play.val).suit
    match maxByKeyLast (fun i => (cards i).rank.index)
        ((List.finRange 4).filter (fun i => (cards i).suit == leading_suit)) with
    | some taker => some { cards := cards, taker := ⟨taker⟩ }
    | none => none
  else
    none

/-- Playing a whole list of cards in order, ignoring rejected calls (the
state is unchanged on `Err`). -/
def OngoingTrick.playAll (t : OngoingTrick) : List TressetteCard → OngoingTrick
  | [] => t
  | c :: cs => ((t.play c).1).playAll cs

/-- Embedding of `Result::is_ok` on the embedded `anyhow::Result<()>`. -/
def resultOk : Except String Unit → Bool
  | Except.ok _ => true
  | Except.error _ => false

/-- Number of `play` calls of the sequence that succeed. -/
def OngoingTrick.succCount (t : OngoingTrick) : List TressetteCard → Nat
  | [] => 0
  | c :: cs =>
    (if resultOk (t.play c).2 then 1 else 0) + ((t.play c).1).succCount cs

/-- The success/failure trace of a sequence of `play` calls: entry `j` is
`true` exactly when the `j`-th call returned `Ok`. -/
def OngoingTrick.playTrace (t : OngoingTrick) : List TressetteCard → List Bool
  | [] => []
  | c :: cs => resultOk (t.play c).2 :: ((t.play c).1).playTrace cs

/-- No two occupied slots hold equal cards. -/
def OngoingTrick.Distinct (t : OngoingTrick) : Prop :=
  ∀ i j : Fin 4, (t.cards i).isSome → t.cards i = t.cards j → i = j

instance (t : OngoingTrick) : Decidable t.Distinct :=
  inferInstanceAs (Decidable (∀ i j : Fin 4, (t.cards i).isSome → t.cards i = t.cards j → i = j))

/-- Number of occupied slots. -/
def OngoingTrick.occupiedCount (t : OngoingTrick) : Nat :=
  (List.finRange 4).countP (fun i => (t.cards i).isSome)

/-- The card array of a fully populated trick, as `finish` extracts it. -/
def OngoingTrick.fullCards (t : OngoingTrick) : Fin 4 → TressetteCard :=
  fun i => (t.cards i).getD default

/-- The state invariant maintained by `play` starting from
`OngoingTrick::new first` after `k` successful calls: `first_to_play` is
unchanged, `next_to_play` has advanced `k` seats cyclically, occupied slots
hold pairwise distinct cards, and the occupied slots are exactly the `k`
seats reached from `first` (all of them once `k ≥ 4`). -/
def OngoingTrick.Inv (t : OngoingTrick) (first : PlayerId) (k : Nat) : Prop :=
  t.first_to_play = first ∧
  (t.next_to_play.val : Nat) = ((first.val : Nat) + k) % 4 ∧
  t.Distinct ∧
  ∀ i : Fin 4, (t.cards i).isSome ↔ ∃ j, j < k ∧ (i : Nat) = ((first.val : Nat) + j) % 4

/-- Spec-side description of where a duplicate-containing sequence fails:
entry `j` is `true` when the `j`-th card differs from every earlier card of
the sequence (`seen` accumulates the earlier cards). -/
def dupFreeTrace (seen : List TressetteCard) : List TressetteCard → List Bool
  | [] => []
  | c :: cs => (!(decide (c ∈ seen))) :: dupFreeTrace (c :: seen) cs

/-- A concrete slot assignment, for counterexamples and witnesses. -/
def slots4 (a b c d : Option TressetteCard) : Fin 4 → Option TressetteCard :=
  fun i =>
    if i.val = 0 then a else if i.val = 1 then b else if i.val = 2 then c else d

/-- A fully populated trick: Hearts Ace, Two, Three, Four, led by seat 0
(the scenario from the spec's testable properties). -/
def exFull : OngoingTrick :=
  { cards := slots4 (some (TressetteCard.new ItalianRank.Ace Suit.Hearts))
      (some (TressetteCard.new ItalianRank.Two Suit.Hearts))
      (some (TressetteCard.new ItalianRank.Three Suit.Hearts))
      (some (TressetteCard.new ItalianRank.Four Suit.Hearts))
    first_to_play := ⟨0⟩
    next_to_play := ⟨0⟩ }

/-- Four pairwise distinct hearts. -/
def fourHearts : List TressetteCard :=
  [TressetteCard.new ItalianRank.Ace Suit.Hearts,
   TressetteCard.new ItalianRank.Two Suit.Hearts,
   TressetteCard.new ItalianRank.Three Suit.Hearts,
   TressetteCard.new ItalianRank.Four Suit.Hearts]

/-- Five pairwise distinct hearts: all five `play` calls succeed, so the
fifth overwrites seat 0's slot. -/
def fiveHearts : List TressetteCard :=
  [TressetteCard.new ItalianRank.Ace Suit.Hearts,
   TressetteCard.new ItalianRank.Two Suit.Hearts,
   TressetteCard.new ItalianRank.Three Suit.Hearts,
   TressetteCard.new ItalianRank.Four Suit.Hearts,
   TressetteCard.new ItalianRank.Five Suit.Hearts]

/-- A 4-card sequence whose third and fourth entries both repeat the first
card, so `play` rejects twice. -/
def dupSeq : List TressetteCard :=
  [TressetteCard.new ItalianRank.Ace Suit.Hearts,
   TressetteCard.new ItalianRank.Two Suit.Hearts,
   TressetteCard.new ItalianRank.Ace Suit.Hearts,
   TressetteCard.new ItalianRank.Ace Suit.Hearts]

/-- A card distinct from the four cards of `exFull`. -/
def fifthCard : TressetteCard := TressetteCard.new ItalianRank.Five Suit.Hearts

/-! ### Helper lemmas -/

theorem PlayerId.inc_val (p : PlayerId) :
    ((p.inc.val : Nat)) = ((p.val : Nat) + 1) % 4 := by
  rcases p with ⟨⟨v, hv⟩⟩
  by_cases h : v < 3
  · simp only [PlayerId.inc, dif_pos h]
    omega
  · simp only [PlayerId.inc, dif_neg h]
    show 0 = (v + 1) % 4
    omega

theorem PlayerId.val_ext {p q : PlayerId} (h : (p.val : Nat) = (q.val : Nat)) : p = q := by
  rcases p with ⟨⟨a, ha⟩⟩
  rcases q with ⟨⟨b, hb⟩⟩
  simp only at h
  subst h
  rfl

theorem maxByKeyLast_go {α : Type} (key : α → Nat) :
    ∀ (xs : List α) (m : α), ∃ m',
      xs.foldl
        (fun acc x =>
          match acc with
          | none => some x
          | some m => if key x < key m then some m else some x)
        (some m) = some m' ∧
      (m' = m ∨ m' ∈ xs) ∧ key m ≤ key m' ∧ ∀ y ∈ xs, key y ≤ key m' := by
  intro xs
  induction xs with
  | nil => exact fun m => ⟨m, rfl, Or.inl rfl, Nat.le_refl _, by simp⟩
  | cons x xs ih =>
    intro m
    by_cases h : key x < key m
    · obtain ⟨m', hfold, hmem, hle, hmax⟩ := ih m
      refine ⟨m', ?_, ?_, hle, ?_⟩
      · simpa [h] using hfold
      · rcases hmem with h1 | h1
        · exact Or.inl h1
        · exact Or.inr (List.mem_cons_of_mem _ h1)
      · intro y hy
        rcases List.mem_cons.mp hy with rfl | hy
        · exact Nat.le_trans (Nat.le_of_lt h) hle
        · exact hmax y hy
    · obtain ⟨m', hfold, hmem, hle, hmax⟩ := ih x
      refine ⟨m', ?_, ?_, ?_, ?_⟩
      · simpa [h] using hfold
      · rcases hmem with h1 | h1
        · exact Or.inr (h1 ▸ List.mem_cons_self _ _)
        · exact Or.inr (List.mem_cons_of_mem _ h1)
      · exact Nat.le_trans (Nat.le_of_not_lt h) hle
      · intro y hy
        rcases List.mem_cons.mp hy with rfl | hy
        · exact hle
        · exact hmax y hy

theorem maxByKeyLast_spec {α : Type} (key : α → Nat) (l : List α) (hne : l ≠ []) :
    ∃ m, maxByKeyLast key l = some m ∧ m ∈ l ∧ ∀ y ∈ l, key y ≤ key m := by
  match l, hne with
  | x :: xs, _ =>
    obtain ⟨m', hfold, hmem, hle, hmax⟩ := maxByKeyLast_go key xs x
    refine ⟨m', hfold, ?_, ?_⟩
    · rcases hmem with rfl | h1
      · exact List.mem_cons_self _ _
      · exact List.mem_cons_of_mem _ h1
    · intro y hy
      rcases List.mem_cons.mp hy with rfl | hy
      · exact hle
      · exact hmax y hy

theorem finish_full_aux (t : OngoingTrick) (h : ∀ i : Fin 4, (t.cards i).isSome) :
    ∃ taker : Fin 4,
      t.finish = some { cards := t.fullCards, taker := ⟨taker⟩ } ∧
      (t.fullCards taker).suit = (t.fullCards t.first_to_play.val).suit ∧
      ∀ i : Fin 4, (t.fullCards i).suit = (t.fullCards t.first_to_play.val).suit →
        (t.fullCards i).rank.index ≤ (t.fullCards taker).rank.index := by
  have hmem : t.first_to_play.val ∈ (List.finRange 4).filter
      (fun i => ((t.cards i).getD default).suit ==
        ((t.cards t.first_to_play.val).getD default).suit) :=
    List.mem_filter.mpr ⟨List.mem_finRange _, by simp⟩
  obtain ⟨m, hm, hmmem, hmax⟩ :=
    maxByKeyLast_spec (fun i => ((t.cards i).getD default).rank.index) _
      (List.ne_nil_of_mem hmem)
  refine ⟨m, ?_, ?_, ?_⟩
  · unfold OngoingTrick.finish
    rw [dif_pos h]
    simp only [hm]
    rfl
  · have := (List.mem_filter.mp hmmem).2
    simpa [OngoingTrick.fullCards] using this
  · intro i hi
    exact hmax i (List.mem_filter.mpr ⟨List.mem_finRange _, by
      simpa [OngoingTrick.fullCards] using hi⟩)

theorem inv_new (first : PlayerId) : (OngoingTrick.new first).Inv first 0 := by
  refine ⟨rfl, ?_, ?_, ?_⟩
  · have : (first.val : Nat) < 4 := first.val.isLt
    simp [OngoingTrick.new]
    omega
  · intro i j hi
    simp [OngoingTrick.new] at hi
  · intro i
    simp [OngoingTrick.new]

theorem play_fail_eq (t : OngoingTrick) (c : TressetteCard)
    (h : ∃ i : Fin 4, t.cards i = some c) : t.play c = (t, Except.error "") := by
  simp [OngoingTrick.play, h]

theorem play_succ_inv (t : OngoingTrick) (first : PlayerId) (k : Nat) (c : TressetteCard)
    (hinv : t.Inv first k) (h : ¬ ∃ i : Fin 4, t.cards i = some c) :
    (t.play c).1.Inv first (k + 1) ∧ resultOk (t.play c).2 = true := by
  obtain ⟨hfirst, hnext, hdist, hwin⟩ := hinv
  have hplay : (t.play c).1 =
      { t with
          cards := Function.update t.cards t.next_to_play.val (some c)
          next_to_play := t.next_to_play.inc } := by
    simp [OngoingTrick.play, h]
  refine ⟨⟨?_, ?_, ?_, ?_⟩, by simp [OngoingTrick.play, h, resultOk]⟩
  · rw [hplay]
    exact hfirst
  · rw [hplay]
    show (t.next_to_play.inc.val : Nat) = _
    rw [PlayerId.inc_val, hnext]
    omega
  · have hD : ∀ i j : Fin 4,
        (Function.update t.cards t.next_to_play.val (some c) i).isSome →
        Function.update t.cards t.next_to_play.val (some c) i =
          Function.update t.cards t.next_to_play.val (some c) j → i = j := by
      intro i j hi hij
      by_cases hin : i = t.next_to_play.val
      · by_cases hjn : j = t.next_to_play.val
        · rw [hin, hjn]
        · exfalso
          rw [hin] at hij
          rw [Function.update_same, Function.update_noteq hjn] at hij
          exact h ⟨j, hij.symm⟩
      · by_cases hjn : j = t.next_to_play.val
        · exfalso
          rw [Function.update_noteq hin, hjn, Function.update_same] at hij
          exact h ⟨i, hij⟩
        · rw [Function.update_noteq hin] at hi hij
          rw [Function.update_noteq hjn] at hij
          exact hdist i j hi hij
    rw [hplay]
    exact hD
  · rw [hplay]
    intro i
    show (Function.update t.cards t.next_to_play.val (some c) i).isSome ↔ _
    by_cases hin : i = t.next_to_play.val
    · subst hin
      rw [Function.update_same]
      simp only [Option.isSome_some, true_iff]
      exact ⟨k, by omega, by rw [← hnext]⟩
    · rw [Function.update_noteq hin]
      rw [hwin i]
      constructor
      · rintro ⟨j, hj, hji⟩
        exact ⟨j, by omega, hji⟩
      · rintro ⟨j, hj, hji⟩
        rcases Nat.lt_or_ge j k with hjk | hjk
        · exact ⟨j, hjk, hji⟩
        · exfalso
          have hjeq : j = k := by omega
          subst hjeq
          apply hin
          apply Fin.ext
          rw [hji, ← hnext]

theorem playAll_inv (cs : List TressetteCard) :
    ∀ (t : OngoingTrick) (first : PlayerId) (k : Nat),
      t.Inv first k → (t.playAll cs).Inv first (k + t.succCount cs) := by
  induction cs with
  | nil =>
    intro t first k h
    simpa [OngoingTrick.playAll, OngoingTrick.succCount] using h
  | cons c cs ih =>
    intro t first k h
    by_cases hc : ∃ i : Fin 4, t.cards i = some c
    · have hp := play_fail_eq t c hc
      simp only [OngoingTrick.playAll, OngoingTrick.succCount, hp, resultOk]
      simpa using ih t first k h
    · obtain ⟨hinv', hok⟩ := play_succ_inv t first k c h hc
      simp only [OngoingTrick.playAll, OngoingTrick.succCount, hok, if_true]
      have hfold := ih (t.play c).1 first (k + 1) hinv'
      rw [show k + (1 + (t.play c).1.succCount cs) = k + 1 + (t.play c).1.succCount cs by omega]
      exact hfold

theorem window_count (f : Fin 4) (k : Fin 5) :
    (List.finRange 4).countP
      (fun i : Fin 4 => decide ((i : Nat) ∈
        (List.range (k : Nat)).map (fun j => ((f : Nat) + j) % 4))) = (k : Nat) := by
  revert f k
  decide

theorem occupied_count_of_inv (t : OngoingTrick) (first : PlayerId) (k : Nat)
    (hinv : t.Inv first k) (hk : k ≤ 4) : t.occupiedCount = k := by
  obtain ⟨-, -, -, hwin⟩ := hinv
  have hpt : ∀ i ∈ List.finRange 4, ((t.cards i).isSome ↔
      decide ((i : Nat) ∈
        (List.range k).map (fun j : Nat => ((first.val : Nat) + j) % 4)) = true) := by
    intro i _
    simp only [decide_eq_true_eq]
    rw [hwin i]
    constructor
    · rintro ⟨j, hj, hji⟩
      exact List.mem_map.mpr ⟨j, List.mem_range.mpr hj, hji.symm⟩
    · intro hmem
      obtain ⟨j, hj, hji⟩ := List.mem_map.mp hmem
      exact ⟨j, List.mem_range.mp hj, hji.symm⟩
  unfold OngoingTrick.occupiedCount
  rw [List.countP_congr hpt]
  exact window_count first.val ⟨k, by omega⟩

theorem playTrace_dupFree (cs : List TressetteCard) :
    ∀ (t : OngoingTrick) (first : PlayerId) (k : Nat) (seen : List TressetteCard),
      t.Inv first k → (∀ c, (∃ i : Fin 4, t.cards i = some c) ↔ c ∈ seen) →
      k + cs.length ≤ 4 →
      t.playTrace cs = dupFreeTrace seen cs := by
  induction cs with
  | nil => intros; rfl
  | cons c cs ih =>
    intro t first k seen hinv hseen hlen
    by_cases hc : ∃ i : Fin 4, t.cards i = some c
    · have hcard : c ∈ seen := (hseen c).mp hc
      have hp := play_fail_eq t c hc
      simp only [OngoingTrick.playTrace, dupFreeTrace, hp, resultOk]
      have hhead : (!decide (c ∈ seen)) = false := by simp [hcard]
      rw [hhead]
      congr 1
      · refine ih t first k (c :: seen) hinv ?_ (by simp at hlen; omega)
        intro d
        rw [hseen d]
        constructor
        · exact fun hd => List.mem_cons_of_mem _ hd
        · intro hd
          rcases List.mem_cons.mp hd with rfl | hd
          · exact hcard
          · exact hd
    · have hcard : c ∉ seen := fun hx => hc ((hseen c).mpr hx)
      obtain ⟨hinv', hok⟩ := play_succ_inv t first k c hinv hc
      have hk4 : k < 4 := by simp at hlen; omega
      have hnone : t.cards t.next_to_play.val = none := by
        obtain ⟨-, hnext, -, hwin⟩ := hinv
        rcases hb : t.cards t.next_to_play.val with _ | d
        · rfl
        · exfalso
          have hs : (t.cards t.next_to_play.val).isSome := by rw [hb]; rfl
          obtain ⟨j, hj, hji⟩ := (hwin _).mp hs
          rw [hnext] at hji
          have hf : (first.val : Nat) < 4 := first.val.isLt
          omega
      have hplay : (t.play c).1 =
          { t with
              cards := Function.update t.cards t.next_to_play.val (some c)
              next_to_play := t.next_to_play.inc } := by
        simp [OngoingTrick.play, hc]
      simp only [OngoingTrick.playTrace, dupFreeTrace, hok]
      have hhead : (!decide (c ∈ seen)) = true := by simp [hcard]
      rw [hhead]
      congr 1
      · refine ih (t.play c).1 first (k + 1) (c :: seen) hinv' ?_ (by simp at hlen; omega)
        intro d
        rw [hplay]
        show (∃ i : Fin 4, Function.update t.cards t.next_to_play.val (some c) i = some d) ↔ _
        constructor
        · rintro ⟨i, hi⟩
          by_cases hin : i = t.next_to_play.val
          · rw [hin, Function.update_same] at hi
            rw [← Option.some_inj.mp hi]
            exact List.mem_cons_self _ _
          · rw [Function.update_noteq hin] at hi
            exact List.mem_cons_of_mem _ ((hseen d).mp ⟨i, hi⟩)
        · intro hd
          rcases List.mem_cons.mp hd with rfl | hd
          · exact ⟨t.next_to_play.val, by rw [Function.update_same]⟩
          · obtain ⟨i, hi⟩ := (hseen d).mpr hd
            refine ⟨i, ?_⟩
            have hin : i ≠ t.next_to_play.val := by
              intro hx
              rw [hx, hnone] at hi
              exact Option.noConfusion hi
            rw [Function.update_noteq hin]
            exact hi

theorem false_mem_dupFreeTrace_of_seen (cs : List TressetteCard) :
    ∀ (seen : List TressetteCard) (c0 : TressetteCard),
      c0 ∈ cs → c0 ∈ seen → false ∈ dupFreeTrace seen cs := by
  induction cs with
  | nil => intro _ _ h; exact absurd h (List.not_mem_nil _)
  | cons c cs ih =>
    intro seen c0 hcs hseen
    rcases List.mem_cons.mp hcs with rfl | hcs
    · simp only [dupFreeTrace]
      have hhead : (!decide (c0 ∈ seen)) = false := by simp [hseen]
      rw [hhead]
      exact List.mem_cons_self _ _
    · simp only [dupFreeTrace]
      exact List.mem_cons_of_mem _ (ih (c :: seen) c0 hcs (List.mem_cons_of_mem _ hseen))

theorem false_mem_dupFreeTrace (cs : List TressetteCard) :
    ∀ seen : List TressetteCard, ¬ cs.Nodup → false ∈ dupFreeTrace seen cs := by
  induction cs with
  | nil => intro _ h; exact absurd List.nodup_nil h
  | cons c cs ih =>
    intro seen h
    rw [List.nodup_cons] at h
    by_cases hc : c ∈ cs
    · simp only [dupFreeTrace]
      exact List.mem_cons_of_mem _
        (false_mem_dupFreeTrace_of_seen cs (c :: seen) c hc (List.mem_cons_self _ _))
    · simp only [dupFreeTrace]
      exact List.mem_cons_of_mem _ (ih (c :: seen) (fun hn => h ⟨hc, hn⟩))

theorem succCount_eq_countP_trace (cs : List TressetteCard) :
    ∀ t : OngoingTrick, t.succCount cs = (t.playTrace cs).countP id := by
  induction cs with
  | nil => intro t; rfl
  | cons c cs ih =>
    intro t
    simp only [OngoingTrick.succCount, OngoingTrick.playTrace, List.countP_cons, ih, id]
    cases resultOk (t.play c).2 <;> simp [Nat.add_comm]

theorem length_playTrace (cs : List TressetteCard) :
    ∀ t : OngoingTrick, (t.playTrace cs).length = cs.length := by
  induction cs with
  | nil => intro t; rfl
  | cons c cs ih =>
    intro t
    simp only [OngoingTrick.playTrace, List.length_cons, ih]

/-! ### Claim theorems -/

/-- C1: a fully populated `OngoingTrick` with pairwise distinct cards always
finishes to `Some trick`; the trick stores exactly the played cards, the
taker's card has the leading suit (the suit of `first_to_play`'s card), and
no card of that suit among the four is strictly greater than the taker's
card under the Tressette order. -/
theorem finish_taker_spec (t : OngoingTrick)
    (hfull : ∀ i : Fin 4, (t.cards i).isSome) (_hdist : t.Distinct) :
    ∃ tr : Trick, t.finish = some tr ∧
      (∀ i : Fin 4, t.cards i = some (tr.cards i)) ∧
      tr.taken_with.suit = (tr.cards t.first_to_play.val).suit ∧
      ∀ i : Fin 4, (tr.cards i).suit = (tr.cards t.first_to_play.val).suit →
        TressetteCard.cmp tr.taken_with (tr.cards i) ≠ Ordering.lt := by
  obtain ⟨taker, hfin, hsuit, hmax⟩ := finish_full_aux t hfull
  refine ⟨_, hfin, ?_, ?_, ?_⟩
  · intro i
    have hs := hfull i
    rcases hoption : t.cards i with _ | c
    · rw [hoption] at hs
      simp at hs
    · simp [OngoingTrick.fullCards, hoption]
  · simpa [Trick.taken_with] using hsuit
  · intro i hi hlt
    have h1 : (t.fullCards taker).rank.index < (t.fullCards i).rank.index :=
      Nat.compare_eq_lt.mp hlt
    have h2 := hmax i hi
    omega

/-- Witness for C1 on the spec's scenario: Hearts Ace, Two, Three, Four led
by seat 0. -/
theorem finish_taker_spec_witness :
    ∃ tr : Trick, exFull.finish = some tr ∧
      (∀ i : Fin 4, exFull.cards i = some (tr.cards i)) ∧
      tr.taken_with.suit = (tr.cards exFull.first_to_play.val).suit ∧
      ∀ i : Fin 4, (tr.cards i).suit = (tr.cards exFull.first_to_play.val).suit →
        TressetteCard.cmp tr.taken_with (tr.cards i) ≠ Ordering.lt :=
  finish_taker_spec exFull (by decide) (by decide)

/-- C2: `play` fails exactly when the card already occupies a slot; on
failure the state is unchanged; on success the card lands in
`next_to_play`'s slot, the other slots are untouched, `first_to_play` is
unchanged, and `next_to_play` advances by one, wrapping 3 to 0. -/
theorem play_result_spec (t : OngoingTrick) (c : TressetteCard) :
    (resultOk (t.play c).2 = false ↔ ∃ i : Fin 4, t.cards i = some c) ∧
    (resultOk (t.play c).2 = false → (t.play c).1 = t) ∧
    (resultOk (t.play c).2 = true →
      (t.play c).1.cards t.next_to_play.val = some c ∧
      (∀ i : Fin 4, i ≠ t.next_to_play.val → (t.play c).1.cards i = t.cards i) ∧
      (t.play c).1.first_to_play = t.first_to_play ∧
      ((t.play c).1.next_to_play.val : Nat) = ((t.next_to_play.val : Nat) + 1) % 4) := by
  by_cases h : ∃ i : Fin 4, t.cards i = some c
  · simp [OngoingTrick.play, h, resultOk]
  · refine ⟨by simp [OngoingTrick.play, h, resultOk],
      by simp [OngoingTrick.play, h, resultOk], fun _ => ⟨?_, ?_, ?_, ?_⟩⟩
    · simp [OngoingTrick.play, h]
    · intro i hi
      simp [OngoingTrick.play, h, Function.update_noteq hi]
    · simp [OngoingTrick.play, h]
    · simp [OngoingTrick.play, h, PlayerId.inc_val]

/-- Witness for C2 at a concrete state and card. -/
theorem play_result_spec_witness :
    (resultOk ((OngoingTrick.new ⟨0⟩).play (TressetteCard.new ItalianRank.Ace Suit.Hearts)).2
        = false ↔
      ∃ i : Fin 4, (OngoingTrick.new ⟨0⟩).cards i =
        some (TressetteCard.new ItalianRank.Ace Suit.Hearts)) ∧
    (resultOk ((OngoingTrick.new ⟨0⟩).play (TressetteCard.new ItalianRank.Ace Suit.Hearts)).2
        = false →
      ((OngoingTrick.new ⟨0⟩).play (TressetteCard.new ItalianRank.Ace Suit.Hearts)).1 =
        OngoingTrick.new ⟨0⟩) ∧
    (resultOk ((OngoingTrick.new ⟨0⟩).play (TressetteCard.new ItalianRank.Ace Suit.Hearts)).2
        = true →
      ((OngoingTrick.new ⟨0⟩).play (TressetteCard.new ItalianRank.Ace Suit.Hearts)).1.cards
          (OngoingTrick.new (⟨0⟩ : PlayerId)).next_to_play.val =
        some (TressetteCard.new ItalianRank.Ace Suit.Hearts) ∧
      (∀ i : Fin 4, i ≠ (OngoingTrick.new (⟨0⟩ : PlayerId)).next_to_play.val →
        ((OngoingTrick.new ⟨0⟩).play (TressetteCard.new ItalianRank.Ace Suit.Hearts)).1.cards i =
          (OngoingTrick.new ⟨0⟩).cards i) ∧
      ((OngoingTrick.new ⟨0⟩).play (TressetteCard.new ItalianRank.Ace Suit.Hearts)).1.first_to_play
          = (OngoingTrick.new (⟨0⟩ : PlayerId)).first_to_play ∧
      (((OngoingTrick.new ⟨0⟩).play
          (TressetteCard.new ItalianRank.Ace Suit.Hearts)).1.next_to_play.val : Nat) =
        (((OngoingTrick.new (⟨0⟩ : PlayerId)).next_to_play.val : Nat) + 1) % 4) :=
  play_result_spec (OngoingTrick.new ⟨0⟩) (TressetteCard.new ItalianRank.Ace Suit.Hearts)

/-- C3: `finish` returns `None` exactly when some slot is empty; with the
state-free embedding the receiver is read-only by construction, matching
the Rust `finish(self)` on a `Copy` type. -/
theorem finish_incomplete (t : OngoingTrick) :
    t.finish = none ↔ ∃ i : Fin 4, t.cards i = none := by
  by_cases h : ∀ i : Fin 4, (t.cards i).isSome
  · obtain ⟨taker, hfin, -, -⟩ := finish_full_aux t h
    rw [hfin]
    constructor
    · intro hx
      exact absurd hx (by simp)
    · rintro ⟨i, hi⟩
      have hs := h i
      rw [hi] at hs
      simp at hs
  · have hnone : t.finish = none := by
      unfold OngoingTrick.finish
      rw [dif_neg h]
    rw [hnone]
    constructor
    · intro _
      obtain ⟨i, hi⟩ := not_forall.mp h
      exact ⟨i, by simpa using hi⟩
    · intro _
      rfl

/-- C4 counterexample: after five successful plays into
`OngoingTrick::new(0)` the slots are still pairwise distinct, but
`next_to_play` is seat 1 while `first_to_play + occupied mod 4` is seat 0,
so the claimed invariant fails on a reachable state. -/
theorem trick_inv_five_plays :
    ¬ (((OngoingTrick.new ⟨0⟩).playAll fiveHearts).Distinct ∧
       ((((OngoingTrick.new ⟨0⟩).playAll fiveHearts).next_to_play.val : Nat) =
         ((((OngoingTrick.new ⟨0⟩).playAll fiveHearts).first_to_play.val : Nat) +
           ((OngoingTrick.new ⟨0⟩).playAll fiveHearts).occupiedCount) % 4)) := by
  decide

/-- C4 amended: on every state reachable from `OngoingTrick::new(first)` no
two occupied slots hold equal cards, and `next_to_play` equals
`first_to_play` plus the number of **successful** `play` calls, modulo 4;
as long as at most four calls succeeded this number equals the number of
occupied slots, recovering the claim as stated. -/
theorem trick_inv_amended (first : PlayerId) (cs : List TressetteCard) :
    ((OngoingTrick.new first).playAll cs).Distinct ∧
    ((((OngoingTrick.new first).playAll cs).next_to_play.val : Nat) =
      ((first.val : Nat) + (OngoingTrick.new first).succCount cs) % 4) ∧
    ((OngoingTrick.new first).succCount cs ≤ 4 →
      ((OngoingTrick.new first).playAll cs).occupiedCount =
        (OngoingTrick.new first).succCount cs) := by
  have h := playAll_inv cs (OngoingTrick.new first) first 0 (inv_new first)
  rw [Nat.zero_add] at h
  obtain ⟨h1, h2, h3, h4⟩ := h
  exact ⟨h3, h2, fun hk => occupied_count_of_inv _ _ _ ⟨h1, h2, h3, h4⟩ hk⟩

/-- Witness for the amended C4 on four distinct plays from seat 1. -/
theorem trick_inv_amended_witness :
    ((OngoingTrick.new ⟨1⟩).playAll fourHearts).Distinct ∧
    ((((OngoingTrick.new ⟨1⟩).playAll fourHearts).next_to_play.val : Nat) =
      (((⟨1⟩ : PlayerId).val : Nat) + (OngoingTrick.new ⟨1⟩).succCount fourHearts) % 4) ∧
    ((OngoingTrick.new ⟨1⟩).succCount fourHearts ≤ 4 →
      ((OngoingTrick.new ⟨1⟩).playAll fourHearts).occupiedCount =
        (OngoingTrick.new ⟨1⟩).succCount fourHearts) :=
  trick_inv_amended ⟨1⟩ fourHearts

/-- C5 counterexample: the 4-card sequence `[A♥, 2♥, A♥, A♥]` contains a
duplicate, yet `play` fails twice, not exactly once. -/
theorem dup_play_fails_twice :
    ¬ dupSeq.Nodup ∧ dupSeq.length = 4 ∧
    ((OngoingTrick.new ⟨0⟩).playTrace dupSeq).countP (fun b => !b) = 2 ∧
    ((OngoingTrick.new ⟨0⟩).playTrace dupSeq).countP (fun b => !b) ≠ 1 := by
  decide

/-- C5 amended: for every 4-card sequence played into a fresh trick, call
`j` fails exactly when card `j` equals an earlier card of the sequence (the
success trace equals `dupFreeTrace`); hence with a duplicate present `play`
fails at least once — first at the index where the first duplicate is
introduced — and the trick never becomes full. -/
theorem dup_play_amended (first : PlayerId) (cs : List TressetteCard)
    (hlen : cs.length = 4) (hdup : ¬ cs.Nodup) :
    (OngoingTrick.new first).playTrace cs = dupFreeTrace [] cs ∧
    false ∈ (OngoingTrick.new first).playTrace cs ∧
    ∃ i : Fin 4, ((OngoingTrick.new first).playAll cs).cards i = none := by
  have hseen0 : ∀ c : TressetteCard,
      (∃ i : Fin 4, (OngoingTrick.new first).cards i = some c) ↔
        c ∈ ([] : List TressetteCard) := by
    intro c
    simp [OngoingTrick.new]
  have htrace := playTrace_dupFree cs (OngoingTrick.new first) first 0 []
    (inv_new first) hseen0 (by omega)
  have hfalse : false ∈ (OngoingTrick.new first).playTrace cs := by
    rw [htrace]
    exact false_mem_dupFreeTrace cs [] hdup
  refine ⟨htrace, hfalse, ?_⟩
  have hlt : (OngoingTrick.new first).succCount cs < 4 := by
    rw [succCount_eq_countP_trace cs (OngoingTrick.new first)]
    have hle := List.countP_le_length (p := id)
      (l := (OngoingTrick.new first).playTrace cs)
    have hne : ((OngoingTrick.new first).playTrace cs).countP id ≠
        ((OngoingTrick.new first).playTrace cs).length := by
      intro he
      have hall := List.countP_eq_length.mp he
      have hcontra := hall false hfalse
      simp at hcontra
    have hlen' := length_playTrace cs (OngoingTrick.new first)
    omega
  have hinvfull := playAll_inv cs (OngoingTrick.new first) first 0 (inv_new first)
  rw [Nat.zero_add] at hinvfull
  obtain ⟨-, -, -, hwin⟩ := hinvfull
  have hf : (first.val : Nat) < 4 := first.val.isLt
  refine ⟨⟨((first.val : Nat) + (OngoingTrick.new first).succCount cs) % 4, by omega⟩, ?_⟩
  rcases hb : ((OngoingTrick.new first).playAll cs).cards
      ⟨((first.val : Nat) + (OngoingTrick.new first).succCount cs) % 4, by omega⟩ with _ | d
  · rfl
  · exfalso
    have hs : (((OngoingTrick.new first).playAll cs).cards
        ⟨((first.val : Nat) + (OngoingTrick.new first).succCount cs) % 4, by omega⟩).isSome := by
      rw [hb]
      rfl
    obtain ⟨j, hj, hji⟩ := (hwin _).mp hs
    have hji' : ((first.val : Nat) + (OngoingTrick.new first).succCount cs) % 4 =
        ((first.val : Nat) + j) % 4 := hji
    omega

/-- Witness for the amended C5 on the duplicate sequence `[A♥, 2♥, A♥, A♥]`. -/
theorem dup_play_amended_witness :
    (OngoingTrick.new ⟨0⟩).playTrace dupSeq = dupFreeTrace [] dupSeq ∧
    false ∈ (OngoingTrick.new ⟨0⟩).playTrace dupSeq ∧
    ∃ i : Fin 4, ((OngoingTrick.new ⟨0⟩).playAll dupSeq).cards i = none :=
  dup_play_amended ⟨0⟩ dupSeq (by decide) (by decide)

/-- C6 counterexample: the Ace of Hearts and the Ace of Spades are distinct
cards, yet the `Ord` comparison (which only consults the rank position)
reports neither as smaller — the order has ties across suits. -/
theorem cmp_ties_across_suits :
    TressetteCard.new ItalianRank.Ace Suit.Hearts ≠
      TressetteCard.new ItalianRank.Ace Suit.Spades ∧
    TressetteCard.cmp (TressetteCard.new ItalianRank.Ace Suit.Hearts)
      (TressetteCard.new ItalianRank.Ace Suit.Spades) ≠ Ordering.lt ∧
    TressetteCard.cmp (TressetteCard.new ItalianRank.Ace Suit.Spades)
      (TressetteCard.new ItalianRank.Ace Suit.Hearts) ≠ Ordering.lt := by
  decide

/-- C6 amended: restricted to cards of one suit — the only way `finish`
uses it — the comparison is a strict total order with no ties: for distinct
same-suit cards exactly one direction compares as less. -/
theorem cmp_strict_on_suit (a b : TressetteCard) (hs : a.suit = b.suit) (hne : a ≠ b) :
    (TressetteCard.cmp a b = Ordering.lt ∧ TressetteCard.cmp b a ≠ Ordering.lt) ∨
    (TressetteCard.cmp b a = Ordering.lt ∧ TressetteCard.cmp a b ≠ Ordering.lt) := by
  revert hs hne
  revert a b
  decide

/-- Witness for the amended C6 on Three of Hearts versus Four of Hearts. -/
theorem cmp_strict_on_suit_witness :
    (TressetteCard.cmp (TressetteCard.new ItalianRank.Three Suit.Hearts)
        (TressetteCard.new ItalianRank.Four Suit.Hearts) = Ordering.lt ∧
      TressetteCard.cmp (TressetteCard.new ItalianRank.Four Suit.Hearts)
        (TressetteCard.new ItalianRank.Three Suit.Hearts) ≠ Ordering.lt) ∨
    (TressetteCard.cmp (TressetteCard.new ItalianRank.Four Suit.Hearts)
        (TressetteCard.new ItalianRank.Three Suit.Hearts) = Ordering.lt ∧
      TressetteCard.cmp (TressetteCard.new ItalianRank.Three Suit.Hearts)
        (TressetteCard.new ItalianRank.Four Suit.Hearts) ≠ Ordering.lt) :=
  cmp_strict_on_suit _ _ rfl (by decide)

/-- C7: `PlayerId::new` and the `TryFrom<usize>` conversion fail exactly
when the value is at least 4, and otherwise produce a `PlayerId` carrying
exactly that value. -/
theorem playerId_construction (v : Nat) :
    (4 ≤ v → PlayerId.new v = none ∧ ∃ e, PlayerId.tryFrom v = Except.error e) ∧
    (v < 4 → ∃ p : PlayerId, PlayerId.new v = some p ∧
      PlayerId.tryFrom v = Except.ok p ∧ (p.val : Nat) = v) := by
  constructor
  · intro h
    have h4 : ¬ v < 4 := by omega
    exact ⟨by simp [PlayerId.new, h4],
      ⟨"Tried to convert " ++ toString v ++
        " into a PlayerId, but acceptable values are in range 0..4",
       by simp [PlayerId.tryFrom, h4]⟩⟩
  · intro h
    exact ⟨⟨⟨v, h⟩⟩, by simp [PlayerId.new, h], by simp [PlayerId.tryFrom, h], rfl⟩

/-- Witness for C7 at the out-of-range value 5 and the in-range value 2. -/
theorem playerId_construction_witness :
    (PlayerId.new 5 = none ∧ ∃ e, PlayerId.tryFrom 5 = Except.error e) ∧
    ∃ p : PlayerId, PlayerId.new 2 = some p ∧
      PlayerId.tryFrom 2 = Except.ok p ∧ (p.val : Nat) = 2 :=
  ⟨(playerId_construction 5).1 (by decide), (playerId_construction 2).2 (by decide)⟩

/-- C8: applying `inc` four times (or any multiple of four times) to a
constructed `PlayerId` is the identity; a single `inc` wraps 3 to 0 and
otherwise adds 1. -/
theorem playerId_inc_cycle (s : PlayerId) (_h : ∃ v, PlayerId.new v = some s) :
    PlayerId.inc^[4] s = s ∧ (∀ k : Nat, PlayerId.inc^[4 * k] s = s) ∧
    ((s.val : Nat) = 3 → (s.inc.val : Nat) = 0) ∧
    ((s.val : Nat) < 3 → (s.inc.val : Nat) = (s.val : Nat) + 1) := by
  have h4 : ∀ p : PlayerId, PlayerId.inc^[4] p = p := by decide
  have hsingle : ∀ p : PlayerId, ((p.val : Nat) = 3 → (p.inc.val : Nat) = 0) ∧
      ((p.val : Nat) < 3 → (p.inc.val : Nat) = (p.val : Nat) + 1) := by decide
  have hid : PlayerId.inc^[4] = id := funext h4
  refine ⟨h4 s, fun k => ?_, (hsingle s).1, (hsingle s).2⟩
  rw [Function.iterate_mul, hid, Function.iterate_id, id]

/-- Witness for C8 at the seat constructed from 2. -/
theorem playerId_inc_cycle_witness :
    PlayerId.inc^[4] ⟨2⟩ = ⟨2⟩ ∧ (∀ k : Nat, PlayerId.inc^[4 * k] (⟨2⟩ : PlayerId) = ⟨2⟩) ∧
    (((⟨2⟩ : PlayerId).val : Nat) = 3 → (((⟨2⟩ : PlayerId).inc.val : Nat)) = 0) ∧
    (((⟨2⟩ : PlayerId).val : Nat) < 3 →
      (((⟨2⟩ : PlayerId).inc.val : Nat)) = ((⟨2⟩ : PlayerId).val : Nat) + 1) :=
  playerId_inc_cycle ⟨2⟩ ⟨2, by decide⟩

/-- C9: in exact rational arithmetic, `value` is 1 on Aces, 1/3 on Two,
Three, King, Knight and Jack, and 0 on Four through Seven. -/
theorem card_value_exact (c : TressetteCard) :
    (c.rank = ItalianRank.Ace → c.value = 1) ∧
    (c.rank = ItalianRank.Two ∨ c.rank = ItalianRank.Three ∨ c.rank = ItalianRank.King ∨
      c.rank = ItalianRank.Knight ∨ c.rank = ItalianRank.Jack → c.value = 1 / 3) ∧
    (c.rank = ItalianRank.Four ∨ c.rank = ItalianRank.Five ∨ c.rank = ItalianRank.Six ∨
      c.rank = ItalianRank.Seven → c.value = 0) := by
  rcases c with ⟨⟨r, s⟩⟩
  cases r <;> refine ⟨fun h => ?_, fun h => ?_, fun h => ?_⟩ <;>
    simp_all [TressetteCard.value, TressetteCard.rank]

/-- Witness for C9 on an Ace, a Two and a Four. -/
theorem card_value_exact_witness :
    (TressetteCard.new ItalianRank.Ace Suit.Hearts).value = 1 ∧
    (TressetteCard.new ItalianRank.Two Suit.Spades).value = 1 / 3 ∧
    (TressetteCard.new ItalianRank.Four Suit.Clubs).value = 0 :=
  ⟨(card_value_exact _).1 rfl,
   (card_value_exact _).2.1 (Or.inl rfl),
   (card_value_exact _).2.2 (Or.inl rfl)⟩

/-- C10: on a fully populated trick, playing a card distinct from all four
stored cards succeeds — there is no fullness check — overwriting the slot
indexed by the current `next_to_play` and advancing `next_to_play` again;
and after exactly four successful plays from a fresh trick `next_to_play`
has rotated back to `first_to_play`. -/
theorem play_on_full (t : OngoingTrick) (c : TressetteCard)
    (_hfull : ∀ i : Fin 4, (t.cards i).isSome)
    (hnew : ∀ i : Fin 4, t.cards i ≠ some c) :
    resultOk (t.play c).2 = true ∧
    (t.play c).1.cards t.next_to_play.val = some c ∧
    (∀ i : Fin 4, i ≠ t.next_to_play.val → (t.play c).1.cards i = t.cards i) ∧
    (t.play c).1.next_to_play = t.next_to_play.inc ∧
    ∀ (first : PlayerId) (cs : List TressetteCard),
      (OngoingTrick.new first).succCount cs = 4 →
      ((OngoingTrick.new first).playAll cs).next_to_play = first := by
  have hc : ¬ ∃ i : Fin 4, t.cards i = some c := by
    rintro ⟨i, hi⟩
    exact hnew i hi
  refine ⟨by simp [OngoingTrick.play, hc, resultOk],
    by simp [OngoingTrick.play, hc], ?_,
    by simp [OngoingTrick.play, hc], ?_⟩
  · intro i hi
    simp [OngoingTrick.play, hc, Function.update_noteq hi]
  · intro first cs hsc
    have h := playAll_inv cs (OngoingTrick.new first) first 0 (inv_new first)
    rw [Nat.zero_add, hsc] at h
    obtain ⟨-, h2, -, -⟩ := h
    have hf : (first.val : Nat) < 4 := first.val.isLt
    exact PlayerId.val_ext (by omega)

/-- Witness for C10: playing the Five of Hearts into the full trick
`exFull`. -/
theorem play_on_full_witness :
    resultOk (exFull.play fifthCard).2 = true ∧
    (exFull.play fifthCard).1.cards exFull.next_to_play.val = some fifthCard ∧
    (∀ i : Fin 4, i ≠ exFull.next_to_play.val →
      (exFull.play fifthCard).1.cards i = exFull.cards i) ∧
    (exFull.play fifthCard).1.next_to_play = exFull.next_to_play.inc ∧
    ∀ (first : PlayerId) (cs : List TressetteCard),
      (OngoingTrick.new first).succCount cs = 4 →
      ((OngoingTrick.new first).playAll cs).next_to_play = first :=
  play_on_full exFull fifthCard (by decide) (by decide)

end Shuftle
